import Mathlib

/-!
Verification of the script papers/221_jessurun/rebuild.py

A shallow embedding of the paper-rebuild script: the LaTeX→RST markup
converter (`create_rst_sections` and its replacement rules), the overleaf
remote-sync logic, the build invoker, and the root-locator walk.

Strings are modelled as `List Char` (`String.data`).  Each regex rule of
the converter is hand-compiled to an executable scanner that follows
Python `re.sub` semantics: scan left to right, at each position try the
pattern; on a match emit the replacement and resume after the matched
text (the replacement is not rescanned); otherwise emit the character and
advance by one.  `.` never matches a newline (no DOTALL flag is used in
the source), and `(.*?)` before a closing brace is the shortest run of
non-newline characters up to the first closing brace.
-/

namespace Rebuild

/-- The character list of a string literal. -/
def lit (s : String) : List Char := s.data

/-- Boolean prefix test on character lists (the anchored step of a literal
regex fragment). -/
def pfx : List Char → List Char → Bool
  | [], _ => true
  | _ :: _, [] => false
  | a :: p, b :: s => a == b && pfx p s

/-- Boolean substring-occurrence test: some position of `s` starts with `p`. -/
def occursIn (p : List Char) : List Char → Bool
  | [] => p.isEmpty
  | c :: t => pfx p (c :: t) || occursIn p t

/-- Number of positions of `s` at which `p` begins (counts overlaps). -/
def countOcc (p : List Char) : List Char → Nat
  | [] => 0
  | c :: t => (if pfx p (c :: t) then 1 else 0) + countOcc p t

/-- Matching of `(.*?)\x7d` (non-greedy body up to the first closing brace;
`.` does not cross a newline): returns the body and the text after the
closing brace, or `none` when no closing brace precedes the end of line. -/
def takeBody : List Char → Option (List Char × List Char)
  | [] => none
  | c :: rest =>
    if c = '}' then some ([], rest)
    else if c = '\n' then none
    else match takeBody rest with
      | some (b, r) => some (c :: b, r)
      | none => none

/-- The Python join of a list of strings with a separator. -/
def joinWith (sep : List Char) : List (List Char) → List Char
  | [] => []
  | [x] => x
  | x :: y :: ys => x ++ sep ++ joinWith sep (y :: ys)

/-- Split a text into its lines (separator `'\n'`, kept nowhere). -/
def splitOnNl : List Char → List (List Char)
  | [] => [[]]
  | c :: rest =>
    if c = '\n' then [] :: splitOnNl rest
    else match splitOnNl rest with
      | [] => [[c]]
      | l :: ls => (c :: l) :: ls

/-- One step of a `re.sub` scan: given the text from the current position,
a step function either matches here — returning the replacement text and
the remaining input after the match — or does not match. -/
def ScanStep : Type := List Char → Option (List Char × List Char)

/-- A step function only matches nonempty text and always consumes at
least one character (true of every pattern in the source: each consumes
one character or more). -/
def StepShrinks (step : ScanStep) : Prop :=
  ∀ s o r, step s = some (o, r) → r.length < s.length

/-- Fuelled `re.sub` scan: at each position try the step; on a match emit
the replacement and resume after it, otherwise emit the character and
advance one position.  Fuel `s.length` always suffices. -/
def scanF (step : ScanStep) : Nat → List Char → List Char
  | 0, s => s
  | _ + 1, [] => []
  | f + 1, c :: rest =>
    match step (c :: rest) with
    | some (o, r) => o ++ scanF step f r
    | none => c :: scanF step f rest

/-- Substitution with a step function: the scan with adequate fuel. -/
def scan (step : ScanStep) (s : List Char) : List Char :=
  scanF step s.length s

/-- Line 106 of rebuild.py: `text.replace(":", "").replace("_", "")`. -/
def _sanitized_label (t : List Char) : List Char :=
  (t.filter (fun c => !(c == ':'))).filter (fun c => !(c == '_'))

/-- Lines 109 to 116 of rebuild.py (`section_replace`): heading text, newline,
then the underline character repeated `len(section_name)` times; the
optional `(sub)` group selects `'-'` over `'='`. -/
def section_replace (isSub : Bool) (section_name : List Char) : List Char :=
  section_name ++ '\n' :: List.replicate section_name.length (if isSub then '-' else '=')

/-- Lines 118 to 125 of rebuild.py (`ref_replace`): a `:ref:` role on the
sanitized label, with the word `Figure` prefixed for `\autoref`. -/
def ref_replace (auto : Bool) (label : List Char) : List Char :=
  let replace_name := _sanitized_label label
  if auto then lit "Figure :ref:`" ++ replace_name ++ lit "`"
  else lit ":ref:`" ++ replace_name ++ lit "`"

/-- The literal text matched by the regex `\\subsection\{`. -/
def subsectionTok : List Char := lit "\\subsection\x7b"

/-- The literal text matched by the regex `\\section\{`. -/
def sectionTok : List Char := lit "\\section\x7b"

/-- Hand-compiled step of `\\(sub)?section\{(.*?)\}` (line 142): the
greedy optional group tries `sub` first, so `\subsection{` is tried
before `\section{`; the two literal heads cannot match at one position. -/
def sectionStep (s : List Char) : Option (List Char × List Char) :=
  if pfx subsectionTok s then
    match takeBody (s.drop subsectionTok.length) with
    | some (name, r) => some (section_replace true name, r)
    | none => none
  else if pfx sectionTok s then
    match takeBody (s.drop sectionTok.length) with
    | some (name, r) => some (section_replace false name, r)
    | none => none
  else none

/-- Substitution of the section/subsection rule over a whole text. -/
def sectionSub (s : List Char) : List Char := scan sectionStep s

/-- Step of a purely literal pattern with a literal replacement (the
lstlisting, `\item`, and tilde rules have this shape). -/
def literalStep (pat repl : List Char) (s : List Char) : Option (List Char × List Char) :=
  if pfx pat s then some (repl, s.drop pat.length) else none

/-- Substitution of a literal pattern by a literal replacement. -/
def litSub (pat repl : List Char) (s : List Char) : List Char :=
  scan (literalStep pat repl) s

/-- The literal text matched by `env_regex("lstlisting", begin=True, end=False)`. -/
def beginLstTok : List Char := lit "\\begin\x7blstlisting\x7d"

/-- The literal text matched by `env_regex("lstlisting", begin=False, end=True)`. -/
def endLstTok : List Char := lit "\\end\x7blstlisting\x7d"

/-- The literal head of the `\footnote{(.*?)}` pattern. -/
def footnoteTok : List Char := lit "\\footnote\x7b"

/-- The in-place replacement emitted by `footnote_replace` (line 131). -/
def fnMarker : List Char := lit " [#]_"

/-- The endnote entry appended by `footnote_replace` (line 130):
`f".. [#] {match.group(1)}"`. -/
def fnEntry (b : List Char) : List Char := lit ".. [#] " ++ b

/-- Fuelled scan of `command_regex("footnote")` with the stateful
`footnote_replace`: the first component is the text with each match
replaced by `fnMarker`, the second the matched bodies in match order
(the accumulator `footnotes`).  Fuel `s.length` always suffices. -/
def footnoteSubF : Nat → List Char → List Char × List (List Char)
  | 0, s => (s, [])
  | _ + 1, [] => ([], [])
  | f + 1, c :: rest =>
    if pfx footnoteTok (c :: rest) then
      match takeBody ((c :: rest).drop footnoteTok.length) with
      | some (b, r) =>
        (fnMarker ++ (footnoteSubF f r).1, b :: (footnoteSubF f r).2)
      | none =>
        (c :: (footnoteSubF f rest).1, (footnoteSubF f rest).2)
    else
      (c :: (footnoteSubF f rest).1, (footnoteSubF f rest).2)

/-- The footnote pass over the text of one file, with adequate fuel. -/
def footnoteSub (s : List Char) : List Char × List (List Char) :=
  footnoteSubF s.length s

/-- The literal head of the `\label{(.*?)}` fragment. -/
def labelTok : List Char := lit "\\label\x7b"

/-- Lines 133 to 135 of rebuild.py (`label_replace`): hoist the sanitized
label above the captured preceding content as a standalone anchor. -/
def label_replace (prev nm : List Char) : List Char :=
  lit ".. _" ++ _sanitized_label nm ++ lit ":\n\n" ++ prev

/-- The match of `(.*)\\label\{(.*?)\}` within one line, hand-compiled:
the greedy `(.*)` group selects the last `\label{` on the line that is
followed by a closing brace, so later positions are preferred.  Returns
(captured prefix, label text, text after the match). -/
def findLabel : List Char → Option (List Char × List Char × List Char)
  | [] => none
  | c :: rest =>
    match findLabel rest with
    | some (before, nm, after) => some (c :: before, nm, after)
    | none =>
      if pfx labelTok (c :: rest) then
        match takeBody ((c :: rest).drop labelTok.length) with
        | some (nm, after) => some ([], nm, after)
        | none => none
      else none

/-- The label rule on one line: `.` never crosses a newline, so a match
lies within one line and (scanning left to right) starts at the first
position of the line; text after the match is retained unchanged. -/
def labelLine (line : List Char) : List Char :=
  match findLabel line with
  | some (before, nm, after) => label_replace before nm ++ after
  | none => line

/-- Substitution of the label rule over a whole text, line by line. -/
def labelSub (s : List Char) : List Char :=
  joinWith (lit "\n") ((splitOnNl s).map labelLine)

/-- Lines 169–172 for one section file: run the footnote pass (the other
rules are stateless text rewrites), then append
`"\n\n" + "\n".join(footnotes)`. -/
def processSectionFile (s : List Char) : List Char :=
  (footnoteSub s).1 ++ lit "\n\n" ++ joinWith (lit "\n") (((footnoteSub s).2).map fnEntry)

/-- The per-file loop of `create_rst_sections` (lines 167–174), restricted
to its footnote state: `footnotes.clear()` runs before each file, so each
file is converted with an empty accumulator. -/
def create_rst_sections : List (List Char) → List (List Char)
  | [] => []
  | f :: fs => processSectionFile f :: create_rst_sections fs

/-- Lines 92 to 93 of rebuild.py: `r"\\" + cmd + r"\{(.*?)\}" * num_args`
(the regex source text; `num_args` defaults to 1 in the source). -/
def command_regex (cmd : String) (num_args : Nat) : String :=
  "\\\\" ++ cmd ++ String.join (List.replicate num_args "\\\x7b(.*?)\\\x7d")

/-- Lines 95 to 104 of rebuild.py: the environment begin/end regex source.
The source asserts `begin or end`; every call site satisfies it, and the
final branch is reached only with both flags set. -/
def env_regex (env : String) (begin_ end_ : Bool) : String :=
  let cur_regex :=
    if begin_ && !end_ then "begin"
    else if end_ && !begin_ then "end"
    else "(begin|end)"
  "\\\\" ++ cur_regex ++ "\\\x7b" ++ env ++ "\\\x7d"

/-- The replacement slot of a rule in `replace_spec`: either a template
string (with `re.sub` backreference/escape syntax, kept as source text)
or one of the four replacement callbacks. -/
inductive ReplAction where
  | tmpl (t : String)
  | label_fn
  | section_fn
  | ref_fn
  | footnote_fn
deriving DecidableEq

/-- Lines 137 to 164 of rebuild.py: the ordered rule table `replace_spec`
(Python dicts preserve insertion order, and the conversion loop applies
the rules in that order). -/
def replace_spec : List (String × ReplAction) :=
  [ (command_regex "cite" 1, ReplAction.tmpl ":cite:`\\1`"),
    ("(.*)\\\\label\\\x7b(.*?)\\\x7d", ReplAction.label_fn),
    ("\\\\(sub)?section\\\x7b(.*?)\\\x7d", ReplAction.section_fn),
    ("\\\\(auto)?ref\\\x7b(.*?)\\\x7d", ReplAction.ref_fn),
    (command_regex "emph" 1, ReplAction.tmpl "*\\1*"),
    (command_regex "texttt" 1, ReplAction.tmpl "``\\1``"),
    ("(\\\\make.*Fig)", ReplAction.tmpl ".. raw:: latex\\n\\n    \\1"),
    ("``(.*?)\"", ReplAction.tmpl "\"\\1\""),
    ("~", ReplAction.tmpl " "),
    ("(^%.*)", ReplAction.tmpl "\\n..\\n    \\1\\n"),
    (command_regex "href" 2, ReplAction.tmpl "`\\2 <\\1>`_"),
    (command_regex "url" 1, ReplAction.tmpl "`\\1 <\\1>`_"),
    (command_regex "footnote" 1, ReplAction.footnote_fn),
    (env_regex "itemize" true true ++ "\n", ReplAction.tmpl ""),
    ("\\\\item", ReplAction.tmpl "*"),
    (env_regex "lstlisting" true false, ReplAction.tmpl "```python"),
    (env_regex "lstlisting" false true, ReplAction.tmpl "```") ]

/-- A process execution, as performed by the operating system. -/
structure Exec where
  program : String
  argv : List String
  cwd : String
deriving DecidableEq

/-- Modelled from the documented Python `subprocess.run` semantics on POSIX:
with `shell=False` the first element of the argument sequence is the
program and the rest its arguments; with `shell=True` the process is
`/bin/sh -c`, the FIRST element alone is the command string the shell
parses and runs, and any further elements become positional parameters of
the shell itself, not arguments of the command. -/
def subprocessRun (args : List String) (shell : Bool) (cwd : String) : Exec :=
  if shell then { program := "/bin/sh", argv := "-c" :: args, cwd := cwd }
  else { program := args.headD "", argv := args.tail, cwd := cwd }

/-- The command string a shell invocation actually parses and executes. -/
def shellCommand (e : Exec) : Option String :=
  if e.program = "/bin/sh" then e.argv[1]? else none

/-- Lines 187 to 194 of rebuild.py (`build_paper`): the two processes run, in
order — the build invocation (`shell=True`, run from the repository root)
and the best-effort `git reset`. -/
def build_paper (pythonExe rootpath paper_id : String) : List Exec :=
  let builder_script := rootpath ++ "/publisher/build_paper.py"
  let paper_relpath := "papers/" ++ paper_id
  [ subprocessRun [pythonExe, builder_script, paper_relpath] true rootpath,
    subprocessRun ["git", "reset"] false rootpath ]

/-- A git-level command issued by the overleaf sync, in issue order. -/
inductive GitCmd where
  | remoteList
  | rawExec (argv : List String)
  | fetch (remote : String)
  | checkoutPath (path : String)
deriving DecidableEq

/-- Outcome of a sync step: the subprocess commands issued, and the
exception message if one was raised. -/
structure SyncResult where
  trace : List GitCmd
  error : Option String
deriving DecidableEq

/-- The message of the `ValueError` raised on line 36. -/
def remoteUnsetMsg : String := "Must fetch from overleaf, but remote was not set!"

/-- Line 38 passes ONE string to `_print_and_run`, so `subprocess.run`
receives a single-element argument sequence whose head is the whole
command line. -/
def overleafAddArgv (url : String) : List String :=
  ["git remote add overleaf " ++ url]

/-- Modelled from POSIX `exec`: an argument sequence is runnable only when
its head names an executable; the scripted git steps resolve `git`, while
a whole command line with spaces is not the name of any executable and
raises `FileNotFoundError`. -/
def availableProgram (p : String) : Bool := p == "git"

/-- Lines 26 to 38 of rebuild.py (`_ensure_overleaf_remote_exists`): list the
configured remotes; return if `overleaf` is present; otherwise read
`OVERLEAF_CURRENT_REPO` (`None` and the empty string both fail the
`if not repo_name` test) and raise `ValueError` when it is unset, else
attempt `_print_and_run` on the single-string command. -/
def _ensure_overleaf_remote_exists (remotes : List String) (envRepo : Option String) :
    SyncResult :=
  if "overleaf" ∈ remotes then { trace := [GitCmd.remoteList], error := none }
  else
    match envRepo with
    | none => { trace := [GitCmd.remoteList], error := some remoteUnsetMsg }
    | some url =>
      if url = "" then { trace := [GitCmd.remoteList], error := some remoteUnsetMsg }
      else
        { trace := [GitCmd.remoteList, GitCmd.rawExec (overleafAddArgv url)],
          error :=
            if availableProgram ("git remote add overleaf " ++ url) then none
            else some "FileNotFoundError" }

/-- The fixed path set mirrored from the remote (line 64). -/
def pullPaths : List String := ["figures", "sections", "references.bib", "main.tex"]

/-- Lines 47 to 82 of rebuild.py (`sync_overleaf`): ensure the remote exists —
any exception there propagates and nothing further runs — then fetch and
check out each mirrored path.  External failure of the fetch or checkout
commands themselves is outside this model. -/
def sync_overleaf (remotes : List String) (envRepo : Option String) : SyncResult :=
  let e := _ensure_overleaf_remote_exists remotes envRepo
  match e.error with
  | some msg => { trace := e.trace, error := some msg }
  | none =>
    { trace := e.trace ++ [GitCmd.fetch "overleaf"] ++ pullPaths.map GitCmd.checkoutPath,
      error := none }

/-- Whether a git command contacts the network (the fetch and the
path-scoped checkouts; listing remotes and adding a remote are local). -/
def isNetworkCmd : GitCmd → Bool
  | GitCmd.fetch _ => true
  | GitCmd.checkoutPath _ => true
  | _ => false

/-- The parent of a directory given as its component list; the root is
its own parent, as in `pathlib`. -/
def parentDir (d : List String) : List String := d.dropLast

/-- Fuelled observation of the `while` loop of `_find_root_path`
(lines 13–16): stop at the first directory whose `.git` marker exists
(`hasGit` abstracts the filesystem), else move to the parent.  `none`
means the loop has not exited within `n` iterations. -/
def findRootF (hasGit : List String → Bool) : Nat → List String → Option (List String)
  | 0, _ => none
  | n + 1, d => if hasGit d then some d else findRootF hasGit n (parentDir d)

end Rebuild

namespace Rebuild

theorem pfx_append_self (p t : List Char) : pfx p (p ++ t) = true := by
  induction p with
  | nil => rfl
  | cons a p ih => simp [pfx, ih]

theorem pfx_iff {p s : List Char} : pfx p s = true ↔ ∃ t, s = p ++ t := by
  constructor
  · intro h
    induction p generalizing s with
    | nil => exact ⟨s, rfl⟩
    | cons a p ih =>
      cases s with
      | nil => simp [pfx] at h
      | cons b s =>
        simp [pfx] at h
        obtain ⟨t, ht⟩ := ih h.2
        exact ⟨t, by simp [h.1, ht]⟩
  · rintro ⟨t, rfl⟩
    exact pfx_append_self p t

theorem pfx_le_length {p s : List Char} (h : pfx p s = true) :
    p.length ≤ s.length := by
  obtain ⟨t, rfl⟩ := pfx_iff.1 h
  simp

theorem pfx_trans_pat {a b s : List Char} (h1 : pfx a b = true)
    (h2 : pfx b s = true) : pfx a s = true := by
  obtain ⟨u, rfl⟩ := pfx_iff.1 h1
  obtain ⟨v, rfl⟩ := pfx_iff.1 h2
  rw [List.append_assoc]
  exact pfx_append_self a (u ++ v)

theorem pfx_snoc {p : List Char} (c : Char) (hc : c ∉ p) (x : List Char) :
    pfx p (x ++ [c]) = pfx p x := by
  induction p generalizing x with
  | nil => rfl
  | cons a p ih =>
    have hac : a ≠ c := fun h => hc (h ▸ List.mem_cons_self a p)
    have hcp : c ∉ p := fun h => hc (List.mem_cons_of_mem a h)
    cases x with
    | nil =>
      simp [pfx]
      intro h
      exact absurd h hac
    | cons b x => simp [pfx, ih hcp]

theorem occursIn_nil (s : List Char) : occursIn [] s = true := by
  induction s with
  | nil => rfl
  | cons c t ih => simp [occursIn, pfx]

theorem occursIn_iff {p s : List Char} :
    occursIn p s = true ↔ ∃ a b, s = a ++ p ++ b := by
  constructor
  · intro h
    induction s with
    | nil =>
      simp [occursIn, List.isEmpty_iff] at h
      exact ⟨[], [], by simp [h]⟩
    | cons c t ih =>
      simp only [occursIn, Bool.or_eq_true] at h
      rcases h with h | h
      · obtain ⟨b, hb⟩ := pfx_iff.1 h
        exact ⟨[], b, by simp [hb]⟩
      · obtain ⟨a, b, hab⟩ := ih h
        exact ⟨c :: a, b, by simp [hab]⟩
  · rintro ⟨a, b, rfl⟩
    induction a with
    | nil =>
      cases p with
      | nil => exact occursIn_nil b
      | cons x xs =>
        simp only [List.nil_append, List.cons_append, occursIn, Bool.or_eq_true]
        left
        exact pfx_append_self (x :: xs) b
    | cons c a ih =>
      simp only [List.cons_append, occursIn, Bool.or_eq_true]
      right
      simpa using ih

theorem occursIn_of_pfx {p s : List Char} (h : pfx p s = true) :
    occursIn p s = true := by
  obtain ⟨t, rfl⟩ := pfx_iff.1 h
  exact occursIn_iff.2 ⟨[], t, rfl⟩

theorem occursIn_append_right {p b : List Char} (a : List Char)
    (h : occursIn p b = true) : occursIn p (a ++ b) = true := by
  obtain ⟨x, y, rfl⟩ := occursIn_iff.1 h
  exact occursIn_iff.2 ⟨a ++ x, y, by simp⟩

theorem occursIn_append_left {p a : List Char} (b : List Char)
    (h : occursIn p a = true) : occursIn p (a ++ b) = true := by
  obtain ⟨x, y, rfl⟩ := occursIn_iff.1 h
  exact occursIn_iff.2 ⟨x, y ++ b, by simp⟩

theorem occursIn_cons_eq (p : List Char) (c : Char) (t : List Char) :
    occursIn p (c :: t) = (pfx p (c :: t) || occursIn p t) := rfl

theorem occursIn_tail_false {p : List Char} {c : Char} {t : List Char}
    (h : occursIn p (c :: t) = false) : occursIn p t = false := by
  rw [occursIn_cons_eq] at h
  exact (Bool.or_eq_false_iff.1 h).2

theorem pfx_false_of_occursIn_false {p : List Char} {c : Char} {t : List Char}
    (h : occursIn p (c :: t) = false) : pfx p (c :: t) = false := by
  rw [occursIn_cons_eq] at h
  exact (Bool.or_eq_false_iff.1 h).1

theorem occursIn_snoc {p : List Char} (c : Char) (hc : c ∉ p) (x : List Char) :
    occursIn p (x ++ [c]) = occursIn p x := by
  induction x with
  | nil =>
    cases p with
    | nil => simp [occursIn, pfx]
    | cons a p =>
      have hac : a ≠ c := fun h => hc (h ▸ List.mem_cons_self a p)
      simp [occursIn, pfx]
      intro h
      exact absurd h hac
  | cons d x ih =>
    simp only [List.cons_append, occursIn_cons_eq, ih]
    rw [show d :: (x ++ [c]) = (d :: x) ++ [c] from rfl, pfx_snoc c hc]

theorem takeBody_sound {l b r : List Char} (h : takeBody l = some (b, r)) :
    l = b ++ '}' :: r ∧ '}' ∉ b ∧ '\n' ∉ b := by
  induction l generalizing b r with
  | nil => simp [takeBody] at h
  | cons c t ih =>
    by_cases hc : c = '}'
    · subst hc
      simp [takeBody] at h
      obtain ⟨rfl, rfl⟩ := h
      simp
    · by_cases hn : c = '\n'
      · subst hn
        simp [takeBody, hc] at h
      · simp only [takeBody, if_neg hc, if_neg hn] at h
        cases htb : takeBody t with
        | none => rw [htb] at h; simp at h
        | some p =>
          obtain ⟨b', r'⟩ := p
          rw [htb] at h
          simp at h
          obtain ⟨rfl, rfl⟩ := h
          obtain ⟨he, hb, hn'⟩ := ih htb
          refine ⟨by simp [he], ?_, ?_⟩
          · simp [hb]
            exact fun hh => hc hh.symm
          · simp [hn']
            exact fun hh => hn hh.symm

theorem takeBody_complete {b : List Char} (r : List Char)
    (hb : '}' ∉ b) (hn : '\n' ∉ b) : takeBody (b ++ '}' :: r) = some (b, r) := by
  induction b with
  | nil => simp [takeBody]
  | cons c t ih =>
    have hc : c ≠ '}' := fun h => hb (h ▸ List.mem_cons_self c t)
    have hcn : c ≠ '\n' := fun h => hn (h ▸ List.mem_cons_self c t)
    have ht : '}' ∉ t := fun h => hb (List.mem_cons_of_mem c h)
    have htn : '\n' ∉ t := fun h => hn (List.mem_cons_of_mem c h)
    simp only [List.cons_append, takeBody, if_neg hc, if_neg hcn, List.append_eq,
      ih ht htn]

theorem takeBody_length {l b r : List Char} (h : takeBody l = some (b, r)) :
    r.length < l.length := by
  obtain ⟨he, -, -⟩ := takeBody_sound h
  subst he
  simp
  omega

theorem splitOnNl_of_no_nl {s : List Char} (h : '\n' ∉ s) :
    splitOnNl s = [s] := by
  induction s with
  | nil => rfl
  | cons c t ih =>
    have hc : c ≠ '\n' := fun hh => h (hh ▸ List.mem_cons_self c t)
    have ht : '\n' ∉ t := fun hh => h (List.mem_cons_of_mem c hh)
    simp only [splitOnNl, if_neg hc, ih ht]

theorem joinWith_single (sep x : List Char) : joinWith sep [x] = x := rfl

theorem take_append_le {α : Type} (n : Nat) (a b : List α) (h : n ≤ a.length) :
    (a ++ b).take n = a.take n := by
  induction a generalizing n with
  | nil =>
    have h0 : n = 0 := by simpa using h
    subst h0
    simp
  | cons x a ih =>
    cases n with
    | zero => simp
    | succ m =>
      simp only [List.cons_append, List.take_succ_cons]
      rw [ih m (by simpa using h)]

theorem drop_len_append {α : Type} (a b : List α) :
    (a ++ b).drop a.length = b := by
  induction a with
  | nil => simp
  | cons x a ih => simp [ih]

theorem take_ge {α : Type} (l : List α) (n : Nat) (h : l.length ≤ n) :
    l.take n = l := by
  induction l generalizing n with
  | nil => simp
  | cons x a ih =>
    cases n with
    | zero => simp at h
    | succ m => simp only [List.take_succ_cons]; rw [ih m (by simpa using h)]

theorem scanF_nil (step : ScanStep) : ∀ f, scanF step f [] = []
  | 0 => rfl
  | _ + 1 => rfl

theorem scanF_irrel (step : ScanStep) (hs : StepShrinks step) :
    ∀ f g s, s.length ≤ f → s.length ≤ g → scanF step f s = scanF step g s := by
  intro f
  induction f with
  | zero =>
    intro g s h1 h2
    have hnil : s = [] := by cases s <;> simp_all
    subst hnil
    rw [scanF_nil, scanF_nil]
  | succ f ih =>
    intro g s h1 h2
    cases s with
    | nil => rw [scanF_nil, scanF_nil]
    | cons c rest =>
      cases g with
      | zero => simp at h2
      | succ g =>
        have hrest : rest.length ≤ f := by simp at h1; omega
        have hrest2 : rest.length ≤ g := by simp at h2; omega
        cases hstep : step (c :: rest) with
        | some p =>
          obtain ⟨o, r⟩ := p
          have hr : r.length < (c :: rest).length := hs _ _ _ hstep
          simp only [List.length_cons] at hr
          simp only [scanF, hstep]
          rw [ih g r (by omega) (by omega)]
        | none =>
          simp only [scanF, hstep]
          rw [ih g rest hrest hrest2]

theorem scan_nil (step : ScanStep) : scan step [] = [] := rfl

theorem scan_cons_hit (step : ScanStep) (hs : StepShrinks step) {c : Char}
    {rest o r : List Char} (h : step (c :: rest) = some (o, r)) :
    scan step (c :: rest) = o ++ scan step r := by
  have hr : r.length < (c :: rest).length := hs _ _ _ h
  simp only [List.length_cons] at hr
  show scanF step (rest.length + 1) (c :: rest) = _
  simp only [scanF, h]
  rw [scanF_irrel step hs rest.length r.length r (by omega) le_rfl]
  rfl

theorem scan_cons_miss (step : ScanStep) {c : Char} {rest : List Char}
    (h : step (c :: rest) = none) :
    scan step (c :: rest) = c :: scan step rest := by
  show scanF step (rest.length + 1) (c :: rest) = _
  simp only [scanF, h]
  rfl

theorem footnoteSubF_nil : ∀ f, footnoteSubF f [] = ([], [])
  | 0 => rfl
  | _ + 1 => rfl

theorem footnoteTok_len : footnoteTok.length = 10 := rfl

theorem footnoteSubF_irrel :
    ∀ f g s, s.length ≤ f → s.length ≤ g → footnoteSubF f s = footnoteSubF g s := by
  intro f
  induction f with
  | zero =>
    intro g s h1 h2
    have hnil : s = [] := by cases s <;> simp_all
    subst hnil
    rw [footnoteSubF_nil, footnoteSubF_nil]
  | succ f ih =>
    intro g s h1 h2
    cases s with
    | nil => rw [footnoteSubF_nil, footnoteSubF_nil]
    | cons c rest =>
      cases g with
      | zero => simp at h2
      | succ g =>
        have hrest : rest.length ≤ f := by simp at h1; omega
        have hrest2 : rest.length ≤ g := by simp at h2; omega
        by_cases hp : pfx footnoteTok (c :: rest) = true
        · cases htb : takeBody ((c :: rest).drop footnoteTok.length) with
          | some p =>
            obtain ⟨b, r⟩ := p
            have hr : r.length < ((c :: rest).drop footnoteTok.length).length :=
              takeBody_length htb
            have hd : ((c :: rest).drop footnoteTok.length).length ≤ rest.length + 1 := by
              simp [List.length_drop]
            simp only [footnoteSubF, if_pos hp, htb]
            rw [ih g r (by omega) (by omega)]
          | none =>
            simp only [footnoteSubF, if_pos hp, htb]
            rw [ih g rest hrest hrest2]
        · simp only [footnoteSubF, if_neg hp]
          rw [ih g rest hrest hrest2]

theorem footnoteSub_hit {c : Char} {rest b r : List Char}
    (hp : pfx footnoteTok (c :: rest) = true)
    (ht : takeBody ((c :: rest).drop footnoteTok.length) = some (b, r)) :
    footnoteSub (c :: rest) =
      (fnMarker ++ (footnoteSub r).1, b :: (footnoteSub r).2) := by
  have hr : r.length < ((c :: rest).drop footnoteTok.length).length := takeBody_length ht
  have hd : ((c :: rest).drop footnoteTok.length).length ≤ rest.length + 1 := by
    simp [List.length_drop]
  show footnoteSubF (rest.length + 1) (c :: rest) = _
  simp only [footnoteSubF, if_pos hp, ht]
  rw [footnoteSubF_irrel rest.length r.length r (by omega) le_rfl]
  rfl

theorem footnoteSub_fail {c : Char} {rest : List Char}
    (hp : pfx footnoteTok (c :: rest) = true)
    (ht : takeBody ((c :: rest).drop footnoteTok.length) = none) :
    footnoteSub (c :: rest) = (c :: (footnoteSub rest).1, (footnoteSub rest).2) := by
  show footnoteSubF (rest.length + 1) (c :: rest) = _
  simp only [footnoteSubF, if_pos hp, ht]
  rfl

theorem footnoteSub_miss {c : Char} {rest : List Char}
    (hp : pfx footnoteTok (c :: rest) = false) :
    footnoteSub (c :: rest) = (c :: (footnoteSub rest).1, (footnoteSub rest).2) := by
  show footnoteSubF (rest.length + 1) (c :: rest) = _
  simp only [footnoteSubF, hp]
  rfl

theorem pfx_head_ne {a b : Char} {p s : List Char} (h : (a == b) = false) :
    pfx (a :: p) (b :: s) = false := by simp [pfx, h]

theorem pfx_cons_elim {a b : Char} {p s : List Char}
    (h : pfx (a :: p) (b :: s) = true) : a = b ∧ pfx p s = true := by
  simp [pfx] at h
  exact ⟨h.1, h.2⟩

theorem pfx_append_weaken {p q s : List Char} (h : pfx (p ++ q) s = true) :
    pfx p s = true := by
  obtain ⟨t, rfl⟩ := pfx_iff.1 h
  rw [List.append_assoc]
  exact pfx_append_self p (q ++ t)

theorem occursIn_append_false_right {p a b : List Char}
    (h : occursIn p (a ++ b) = false) : occursIn p b = false := by
  by_contra hx
  have hx' : occursIn p b = true := by simpa using hx
  rw [occursIn_append_right a hx'] at h
  exact absurd h (by simp)

theorem fnMarker_cons : fnMarker = ' ' :: '[' :: '#' :: ']' :: '_' :: [] := rfl

theorem footnoteTok_cons : footnoteTok = '\\' :: lit "footnote\x7b" := rfl

theorem bracket_cons : lit "[#]" = '[' :: '#' :: ']' :: [] := rfl

theorem countOcc_fnMarker_append (o : List Char) :
    countOcc fnMarker (fnMarker ++ o) = 1 + countOcc fnMarker o := by
  have h0 : pfx fnMarker (' ' :: '[' :: '#' :: ']' :: '_' :: o) = true :=
    pfx_append_self fnMarker o
  have h1 : pfx fnMarker ('[' :: '#' :: ']' :: '_' :: o) = false := by
    rw [fnMarker_cons]; exact pfx_head_ne (by decide)
  have h2 : pfx fnMarker ('#' :: ']' :: '_' :: o) = false := by
    rw [fnMarker_cons]; exact pfx_head_ne (by decide)
  have h3 : pfx fnMarker (']' :: '_' :: o) = false := by
    rw [fnMarker_cons]; exact pfx_head_ne (by decide)
  have h4 : pfx fnMarker ('_' :: o) = false := by
    rw [fnMarker_cons]; exact pfx_head_ne (by decide)
  show countOcc fnMarker (' ' :: '[' :: '#' :: ']' :: '_' :: o) = 1 + countOcc fnMarker o
  simp [countOcc, h0, h1, h2, h3, h4]

theorem footnoteSub_head (s : List Char) :
    (s = [] ∧ (footnoteSub s).1 = []) ∨
    (∃ o, (footnoteSub s).1 = ' ' :: o) ∨
    (∃ c rest, s = c :: rest ∧ (footnoteSub s).1 = c :: (footnoteSub rest).1) := by
  cases s with
  | nil => exact Or.inl ⟨rfl, rfl⟩
  | cons c rest =>
    by_cases hp : pfx footnoteTok (c :: rest) = true
    · cases htb : takeBody ((c :: rest).drop footnoteTok.length) with
      | some p =>
        obtain ⟨b, r⟩ := p
        refine Or.inr (Or.inl ⟨lit "[#]_" ++ (footnoteSub r).1, ?_⟩)
        rw [footnoteSub_hit hp htb]
        rfl
      | none =>
        exact Or.inr (Or.inr ⟨c, rest, rfl, by rw [footnoteSub_fail hp htb]⟩)
    · have hp' : pfx footnoteTok (c :: rest) = false := by simpa using hp
      exact Or.inr (Or.inr ⟨c, rest, rfl, by rw [footnoteSub_miss hp']⟩)

theorem footnoteSub_no_bracket {s : List Char}
    (h : occursIn (lit "[#]") s = false) :
    pfx (lit "[#]") (footnoteSub s).1 = false := by
  by_contra hb
  have hb1 : pfx (lit "[#]") (footnoteSub s).1 = true := by simpa using hb
  rcases footnoteSub_head s with ⟨rfl, h1⟩ | ⟨o, h1⟩ | ⟨c, rest, rfl, h1⟩
  · rw [h1] at hb1
    exact absurd hb1 (by decide)
  · rw [h1, bracket_cons] at hb1
    rw [pfx_head_ne (by decide)] at hb1
    exact absurd hb1 (by simp)
  · rw [h1, bracket_cons] at hb1
    obtain ⟨hc, hb2⟩ := pfx_cons_elim hb1
    subst hc
    rcases footnoteSub_head rest with ⟨hre, h2⟩ | ⟨o2, h2⟩ | ⟨d, rest2, hre, h2⟩
    · rw [h2] at hb2
      exact absurd hb2 (by decide)
    · rw [h2] at hb2
      rw [pfx_head_ne (by decide)] at hb2
      exact absurd hb2 (by simp)
    · rw [h2] at hb2
      obtain ⟨hd, hb3⟩ := pfx_cons_elim hb2
      subst hd
      rcases footnoteSub_head rest2 with ⟨hre2, h3⟩ | ⟨o3, h3⟩ | ⟨e, rest3, hre2, h3⟩
      · rw [h3] at hb3
        exact absurd hb3 (by decide)
      · rw [h3] at hb3
        rw [pfx_head_ne (by decide)] at hb3
        exact absurd hb3 (by simp)
      · rw [h3] at hb3
        obtain ⟨he, -⟩ := pfx_cons_elim hb3
        subst he
        subst hre
        subst hre2
        have hocc : occursIn (lit "[#]") ('[' :: '#' :: ']' :: rest3) = true := by
          apply occursIn_of_pfx
          rw [bracket_cons]
          exact pfx_append_self ('[' :: '#' :: ']' :: []) rest3
        rw [hocc] at h
        exact absurd h (by simp)

theorem footnoteSub_marker_count_fuel :
    ∀ f s, s.length ≤ f → occursIn (lit "[#]") s = false →
      countOcc fnMarker (footnoteSub s).1 = (footnoteSub s).2.length := by
  intro f
  induction f with
  | zero =>
    intro s h1 _
    have hnil : s = [] := by cases s <;> simp_all
    subst hnil
    rfl
  | succ f ih =>
    intro s h1 h2
    cases s with
    | nil => rfl
    | cons c rest =>
      have hrest_occ : occursIn (lit "[#]") rest = false := occursIn_tail_false h2
      have hlen : rest.length ≤ f := by simp at h1; omega
      by_cases hp : pfx footnoteTok (c :: rest) = true
      · cases htb : takeBody ((c :: rest).drop footnoteTok.length) with
        | some p =>
          obtain ⟨b, r⟩ := p
          have hsound := takeBody_sound htb
          have h2' : occursIn (lit "[#]") ((c :: rest).take footnoteTok.length ++
              (c :: rest).drop footnoteTok.length) = false := by
            rw [List.take_append_drop]
            exact h2
          have h2d : occursIn (lit "[#]") ((c :: rest).drop footnoteTok.length) = false :=
            occursIn_append_false_right h2'
          have h2b : occursIn (lit "[#]") (b ++ '}' :: r) = false := by
            rw [← hsound.1]
            exact h2d
          have hro : occursIn (lit "[#]") r = false :=
            occursIn_tail_false (occursIn_append_false_right h2b)
          have he := congrArg List.length hsound.1
          simp [List.length_drop] at he
          have hrlen : r.length ≤ f := by omega
          rw [footnoteSub_hit hp htb]
          simp only [countOcc_fnMarker_append, ih r hrlen hro, List.length_cons]
          omega
        | none =>
          have hc : c = '\\' := by
            rw [footnoteTok_cons] at hp
            exact (pfx_cons_elim hp).1.symm
          subst hc
          rw [footnoteSub_fail hp htb]
          have hmf : pfx fnMarker ('\\' :: (footnoteSub rest).1) = false := by
            rw [fnMarker_cons]; exact pfx_head_ne (by decide)
          simp [countOcc, hmf, ih rest hlen hrest_occ]
      · have hp' : pfx footnoteTok (c :: rest) = false := by simpa using hp
        rw [footnoteSub_miss hp']
        have hmf : pfx fnMarker (c :: (footnoteSub rest).1) = false := by
          by_contra hx
          have hx1 : pfx fnMarker (c :: (footnoteSub rest).1) = true := by simpa using hx
          rw [fnMarker_cons] at hx1
          obtain ⟨-, hx2⟩ := pfx_cons_elim hx1
          have hx3 : pfx (lit "[#]") (footnoteSub rest).1 = true := by
            have : ('[' :: '#' :: ']' :: '_' :: []) = lit "[#]" ++ ['_'] := by decide
            rw [this] at hx2
            exact pfx_append_weaken hx2
          rw [footnoteSub_no_bracket hrest_occ] at hx3
          exact absurd hx3 (by simp)
        simp [countOcc, hmf, ih rest hlen hrest_occ]

theorem create_rst_sections_get (files : List (List Char)) :
    ∀ i : Nat, (create_rst_sections files)[i]? = (files[i]?).map processSectionFile := by
  induction files with
  | nil => intro i; simp [create_rst_sections]
  | cons f fs ih =>
    intro i
    cases i with
    | zero => simp [create_rst_sections]
    | succ j => simp [create_rst_sections, ih j]

/-- C1: for a section file containing `N` footnote commands (matches of
`\footnote{(.*?)}`, reached by the footnote rule), the converted file is the
text with each command replaced in place by a marker, followed by the endnote
block; the marker ` [#]_` occurs exactly `N` times in the converted text (the
file is assumed not to contain the marker text `[#]` of its own), the endnote
block lists exactly the `N` bodies as `.. [#] body` in first-occurrence
order, and each file of the batch is converted with a freshly cleared
accumulator, so its output depends only on its own text. -/
theorem footnote_conversion_spec (files : List (List Char)) (i : Nat) (s : List Char)
    (hfile : files[i]? = some s)
    (hclean : occursIn (lit "[#]") s = false) :
    (create_rst_sections files)[i]? = some (processSectionFile s) ∧
    processSectionFile s =
      (footnoteSub s).1 ++ lit "\n\n" ++
        joinWith (lit "\n") (((footnoteSub s).2).map fnEntry) ∧
    countOcc fnMarker (footnoteSub s).1 = (footnoteSub s).2.length ∧
    (((footnoteSub s).2).map fnEntry).length = (footnoteSub s).2.length ∧
    (∀ j : Nat, (((footnoteSub s).2).map fnEntry)[j]? =
      ((footnoteSub s).2[j]?).map fnEntry) := by
  refine ⟨?_, rfl, footnoteSub_marker_count_fuel s.length s le_rfl hclean, by simp, ?_⟩
  · rw [create_rst_sections_get, hfile]
    rfl
  · intro j
    simp [List.getElem?_map]

/-- Witness for C1 at a concrete two-file batch. -/
theorem footnote_conversion_witness :
    ([lit "a\\footnote\x7bx\x7d b", lit "c"] : List (List Char))[0]? =
      some (lit "a\\footnote\x7bx\x7d b") ∧
    occursIn (lit "[#]") (lit "a\\footnote\x7bx\x7d b") = false ∧
    (create_rst_sections [lit "a\\footnote\x7bx\x7d b", lit "c"])[0]? =
      some (processSectionFile (lit "a\\footnote\x7bx\x7d b")) ∧
    countOcc fnMarker (footnoteSub (lit "a\\footnote\x7bx\x7d b")).1 =
      (footnoteSub (lit "a\\footnote\x7bx\x7d b")).2.length := by
  refine ⟨by decide, by decide, ?_, ?_⟩
  · exact (footnote_conversion_spec [lit "a\\footnote\x7bx\x7d b", lit "c"] 0 _
      (by decide) (by decide)).1
  · exact (footnote_conversion_spec [lit "a\\footnote\x7bx\x7d b", lit "c"] 0 _
      (by decide) (by decide)).2.2.1

theorem pfx_cons_same {a : Char} (p s : List Char) :
    pfx (a :: p) (a :: s) = pfx p s := by simp [pfx]

theorem pfx_subsection_of_section (x : List Char) :
    pfx subsectionTok (lit "\\section\x7b" ++ x) = false := by
  rw [show subsectionTok = '\\' :: 's' :: 'u' :: lit "bsection\x7b" from rfl,
    show lit "\\section\x7b" ++ x = '\\' :: 's' :: 'e' :: (lit "ction\x7b" ++ x) from rfl]
  rw [pfx_cons_same, pfx_cons_same]
  exact pfx_head_ne (by decide)

theorem sectionStep_shrinks : StepShrinks sectionStep := by
  intro s o r h
  unfold sectionStep at h
  have hd1 : (s.drop subsectionTok.length).length ≤ s.length := by
    simp [List.length_drop]
  have hd2 : (s.drop sectionTok.length).length ≤ s.length := by
    simp [List.length_drop]
  split at h
  · split at h
    · next name r' htb =>
      have := takeBody_length htb
      simp only [Option.some.injEq, Prod.mk.injEq] at h
      obtain ⟨-, rfl⟩ := h
      omega
    · exact absurd h (by simp)
  · split at h
    · split at h
      · next name r' htb =>
        have := takeBody_length htb
        simp only [Option.some.injEq, Prod.mk.injEq] at h
        obtain ⟨-, rfl⟩ := h
        omega
      · exact absurd h (by simp)
    · exact absurd h (by simp)

theorem sectionStep_sec {name : List Char} (hb : '}' ∉ name) (hn : '\n' ∉ name) :
    sectionStep (lit "\\section\x7b" ++ (name ++ lit "\x7d")) =
      some (section_replace false name, []) := by
  have h1 : pfx subsectionTok (lit "\\section\x7b" ++ (name ++ lit "\x7d")) = false :=
    pfx_subsection_of_section _
  have h2 : pfx sectionTok (lit "\\section\x7b" ++ (name ++ lit "\x7d")) = true :=
    pfx_append_self sectionTok (name ++ lit "\x7d")
  have h3 : (lit "\\section\x7b" ++ (name ++ lit "\x7d")).drop sectionTok.length =
      name ++ lit "\x7d" := drop_len_append sectionTok (name ++ lit "\x7d")
  have h4 : takeBody (name ++ lit "\x7d") = some (name, []) := by
    rw [show (lit "\x7d" : List Char) = '}' :: [] from rfl]
    exact takeBody_complete [] hb hn
  simp [sectionStep, h1, h2, h3, h4]

theorem sectionStep_subsec {name : List Char} (hb : '}' ∉ name) (hn : '\n' ∉ name) :
    sectionStep (lit "\\subsection\x7b" ++ (name ++ lit "\x7d")) =
      some (section_replace true name, []) := by
  have h2 : pfx subsectionTok (lit "\\subsection\x7b" ++ (name ++ lit "\x7d")) = true :=
    pfx_append_self subsectionTok (name ++ lit "\x7d")
  have h3 : (lit "\\subsection\x7b" ++ (name ++ lit "\x7d")).drop subsectionTok.length =
      name ++ lit "\x7d" := drop_len_append subsectionTok (name ++ lit "\x7d")
  have h4 : takeBody (name ++ lit "\x7d") = some (name, []) := by
    rw [show (lit "\x7d" : List Char) = '}' :: [] from rfl]
    exact takeBody_complete [] hb hn
  simp [sectionStep, h2, h3, h4]

/-- C2: a heading command with text of length `L` converts to the text
followed by an underline of exactly `L` copies of the underline character;
sections are underlined with `'='`, subsections with the different
character `'-'`.  (The heading text is any brace- and newline-free
argument, as in the source documents.) -/
theorem heading_underline_spec (name : List Char) (hb : '}' ∉ name) (hn : '\n' ∉ name) :
    sectionSub (lit "\\section\x7b" ++ (name ++ lit "\x7d")) =
      name ++ '\n' :: List.replicate name.length '=' ∧
    sectionSub (lit "\\subsection\x7b" ++ (name ++ lit "\x7d")) =
      name ++ '\n' :: List.replicate name.length '-' ∧
    (List.replicate name.length '=').length = name.length ∧
    ('=' : Char) ≠ '-' := by
  refine ⟨?_, ?_, by simp, by decide⟩
  · have hstep := sectionStep_sec hb hn
    rw [show lit "\\section\x7b" ++ (name ++ lit "\x7d") =
      '\\' :: (lit "section\x7b" ++ (name ++ lit "\x7d")) from rfl] at hstep ⊢
    rw [sectionSub, scan_cons_hit sectionStep sectionStep_shrinks hstep, scan_nil,
      List.append_nil]
    rfl
  · have hstep := sectionStep_subsec hb hn
    rw [show lit "\\subsection\x7b" ++ (name ++ lit "\x7d") =
      '\\' :: (lit "subsection\x7b" ++ (name ++ lit "\x7d")) from rfl] at hstep ⊢
    rw [sectionSub, scan_cons_hit sectionStep sectionStep_shrinks hstep, scan_nil,
      List.append_nil]
    rfl

/-- Witness for C2: `\section{Results}` becomes `Results` underlined by
seven `'='` characters, and `\subsection{Setup}` uses `'-'`. -/
theorem heading_underline_witness :
    ('}' ∉ lit "Results") ∧
    sectionSub (lit "\\section\x7bResults\x7d") = lit "Results\n=======" ∧
    sectionSub (lit "\\subsection\x7bSetup\x7d") = lit "Setup\n-----" := by
  refine ⟨by decide, ?_, ?_⟩
  · rw [show lit "\\section\x7bResults\x7d" =
      lit "\\section\x7b" ++ (lit "Results" ++ lit "\x7d") from by decide]
    rw [(heading_underline_spec (lit "Results") (by decide) (by decide)).1]
    decide
  · rw [show lit "\\subsection\x7bSetup\x7d" =
      lit "\\subsection\x7b" ++ (lit "Setup" ++ lit "\x7d") from by decide]
    rw [(heading_underline_spec (lit "Setup") (by decide) (by decide)).2.1]
    decide

theorem sanitize_eq_filter (t : List Char) :
    _sanitized_label t = t.filter (fun c => c != ':' && c != '_') := by
  induction t with
  | nil => rfl
  | cons c t ih =>
    by_cases h1 : c = ':'
    · subst h1
      simpa [_sanitized_label, List.filter_cons] using ih
    · by_cases h2 : c = '_'
      · subst h2
        simpa [_sanitized_label, List.filter_cons] using ih
      · simp only [_sanitized_label, List.filter_cons] at ih ⊢
        simp [h1, h2, ih]

theorem filter_twice {p : Char → Bool} (t : List Char) :
    (t.filter p).filter p = t.filter p := by
  induction t with
  | nil => rfl
  | cons c t ih =>
    by_cases h : p c = true
    · simp [List.filter_cons, h, ih]
    · simp only [Bool.not_eq_true] at h
      simp [List.filter_cons, h, ih]

/-- C7: label sanitization removes exactly the colon and underscore
characters — it equals the order-preserving filter keeping every other
character — never contains either character afterwards, and is
idempotent. -/
theorem sanitize_exact_idem_spec (t : List Char) :
    _sanitized_label t = t.filter (fun c => c != ':' && c != '_') ∧
    (':' ∉ _sanitized_label t ∧ '_' ∉ _sanitized_label t) ∧
    _sanitized_label (_sanitized_label t) = _sanitized_label t := by
  refine ⟨sanitize_eq_filter t, ⟨?_, ?_⟩, ?_⟩
  · rw [sanitize_eq_filter]
    simp [List.mem_filter]
  · rw [sanitize_eq_filter]
    simp [List.mem_filter]
  · rw [sanitize_eq_filter t, sanitize_eq_filter]
    exact filter_twice t

/-- C8: the `\autoref` replacement is the `\ref` replacement prefixed
by the fixed word `Figure ` (the label is sanitized identically in both). -/
theorem autoref_prefix_spec (label : List Char) :
    ref_replace true label = lit "Figure " ++ ref_replace false label := by
  show lit "Figure :ref:`" ++ _sanitized_label label ++ lit "`" =
    lit "Figure " ++ (lit ":ref:`" ++ _sanitized_label label ++ lit "`")
  rw [show lit "Figure :ref:`" = lit "Figure " ++ lit ":ref:`" from by decide]
  simp [List.append_assoc]

theorem labelTok_cons : labelTok = '\\' :: lit "label\x7b" := rfl

theorem occursIn_cons_false {p : List Char} {c : Char} {t : List Char}
    (h : pfx p (c :: t) = false) : occursIn p (c :: t) = occursIn p t := by
  simp [occursIn_cons_eq, h]

theorem findLabel_cons (c : Char) (rest : List Char) :
    findLabel (c :: rest) =
      match findLabel rest with
      | some (before, nm, after) => some (c :: before, nm, after)
      | none =>
        if pfx labelTok (c :: rest) then
          match takeBody ((c :: rest).drop labelTok.length) with
          | some (nm, after) => some ([], nm, after)
          | none => none
        else none := rfl

theorem findLabel_none_of_no_tok {l : List Char} (h : occursIn labelTok l = false) :
    findLabel l = none := by
  induction l with
  | nil => rfl
  | cons c rest ih =>
    have h1 : pfx labelTok (c :: rest) = false := pfx_false_of_occursIn_false h
    have h2 : occursIn labelTok rest = false := occursIn_tail_false h
    simp [findLabel, ih h2, h1]

theorem findLabel_append {T b nm a : List Char} (u : List Char)
    (h : findLabel T = some (b, nm, a)) :
    findLabel (u ++ T) = some (u ++ b, nm, a) := by
  induction u with
  | nil => simpa using h
  | cons c u ih => simp [findLabel, ih]

theorem no_tok_in_tail {nm : List Char} (hnm : occursIn labelTok nm = false) :
    occursIn labelTok (lit "label\x7b" ++ (nm ++ lit "\x7d")) = false := by
  rw [show lit "label\x7b" ++ (nm ++ lit "\x7d") =
    'l' :: 'a' :: 'b' :: 'e' :: 'l' :: '\x7b' :: (nm ++ ['}']) from rfl]
  rw [occursIn_cons_false (by rw [labelTok_cons]; exact pfx_head_ne (by decide))]
  rw [occursIn_cons_false (by rw [labelTok_cons]; exact pfx_head_ne (by decide))]
  rw [occursIn_cons_false (by rw [labelTok_cons]; exact pfx_head_ne (by decide))]
  rw [occursIn_cons_false (by rw [labelTok_cons]; exact pfx_head_ne (by decide))]
  rw [occursIn_cons_false (by rw [labelTok_cons]; exact pfx_head_ne (by decide))]
  rw [occursIn_cons_false (by rw [labelTok_cons]; exact pfx_head_ne (by decide))]
  rw [occursIn_snoc '}' (by decide) nm]
  exact hnm

theorem findLabel_top {nm : List Char} (hb : '}' ∉ nm) (hn : '\n' ∉ nm)
    (hnm : occursIn labelTok nm = false) :
    findLabel (labelTok ++ (nm ++ lit "\x7d")) = some ([], nm, []) := by
  rw [show labelTok ++ (nm ++ lit "\x7d") =
    '\\' :: (lit "label\x7b" ++ (nm ++ lit "\x7d")) from rfl]
  have hrest : findLabel (lit "label\x7b" ++ (nm ++ lit "\x7d")) = none :=
    findLabel_none_of_no_tok (no_tok_in_tail hnm)
  have hp : pfx labelTok ('\\' :: (lit "label\x7b" ++ (nm ++ lit "\x7d"))) = true := by
    show pfx labelTok (labelTok ++ (nm ++ lit "\x7d")) = true
    exact pfx_append_self _ _
  have hdrop : ('\\' :: (lit "label\x7b" ++ (nm ++ lit "\x7d"))).drop labelTok.length =
      nm ++ lit "\x7d" := by
    show (labelTok ++ (nm ++ lit "\x7d")).drop labelTok.length = _
    exact drop_len_append _ _
  have htb : takeBody (nm ++ lit "\x7d") = some (nm, []) := by
    rw [show (lit "\x7d" : List Char) = '}' :: [] from rfl]
    exact takeBody_complete [] hb hn
  rw [findLabel_cons, hrest]
  simp [hp, hdrop, htb]

theorem findLabel_main {u nm : List Char} (hb : '}' ∉ nm) (hn : '\n' ∉ nm)
    (hnm : occursIn labelTok nm = false) :
    findLabel (u ++ (labelTok ++ (nm ++ lit "\x7d"))) = some (u, nm, []) := by
  have h := findLabel_append u (findLabel_top hb hn hnm)
  simpa using h

/-- C5: a `\label{…}` attached after preceding content on a line is
hoisted above that content as a standalone anchor: the line
`u\label{nm}` becomes `.. _s:` (with `s` the label text minus colons and
underscores), a blank line, then `u`.  (The label text is brace- and
newline-free and contains no nested `\label{`, as in the source
documents.) -/
theorem label_hoist_spec (u nm : List Char) (hu : '\n' ∉ u) (hb : '}' ∉ nm)
    (hn : '\n' ∉ nm) (hnm : occursIn labelTok nm = false) :
    labelSub (u ++ (labelTok ++ (nm ++ lit "\x7d"))) =
      lit ".. _" ++ _sanitized_label nm ++ lit ":\n\n" ++ u := by
  have hnl : '\n' ∉ u ++ (labelTok ++ (nm ++ lit "\x7d")) := by
    intro hmem
    rcases List.mem_append.1 hmem with h | h
    · exact hu h
    rcases List.mem_append.1 h with h | h
    · exact absurd h (by decide)
    rcases List.mem_append.1 h with h | h
    · exact hn h
    · exact absurd h (by decide)
  rw [labelSub, splitOnNl_of_no_nl hnl]
  simp only [List.map]
  rw [joinWith_single]
  show labelLine (u ++ (labelTok ++ (nm ++ lit "\x7d"))) = _
  unfold labelLine
  rw [findLabel_main hb hn hnm]
  simp [label_replace]

/-- Witness for C5: the concrete scenario of the spec,
`Some text\label{sec:intro}` hoists to `.. _secintro:`, blank line,
`Some text`. -/
theorem label_hoist_witness :
    ('\n' ∉ lit "Some text") ∧
    labelSub (lit "Some text\\label\x7bsec:intro\x7d") =
      lit ".. _secintro:\n\nSome text" := by
  refine ⟨by decide, ?_⟩
  rw [show lit "Some text\\label\x7bsec:intro\x7d" =
    lit "Some text" ++ (labelTok ++ (lit "sec:intro" ++ lit "\x7d")) from by decide]
  rw [label_hoist_spec (lit "Some text") (lit "sec:intro") (by decide) (by decide)
    (by decide) (by decide)]
  decide

theorem literalStep_shrinks (pat repl : List Char) (hpat : pat ≠ []) :
    StepShrinks (literalStep pat repl) := by
  intro s o r h
  unfold literalStep at h
  split at h
  · next hpfx =>
    simp only [Option.some.injEq, Prod.mk.injEq] at h
    obtain ⟨-, rfl⟩ := h
    have h1 : pat.length ≤ s.length := pfx_le_length hpfx
    have h2 : 0 < pat.length := List.length_pos.2 hpat
    simp [List.length_drop]
    omega
  · exact absurd h (by simp)

theorem litSub_id {pat repl s : List Char} (_hpat : pat ≠ [])
    (h : occursIn pat s = false) : litSub pat repl s = s := by
  induction s with
  | nil => rfl
  | cons c t ih =>
    have hstep : literalStep pat repl (c :: t) = none := by
      simp [literalStep, pfx_false_of_occursIn_false h]
    show scan (literalStep pat repl) (c :: t) = c :: t
    rw [scan_cons_miss _ hstep]
    exact congrArg (c :: ·) (ih (occursIn_tail_false h))

theorem pfx_into_head {pat x rest : List Char} (hx : x ≠ []) (hpat : pat ≠ [])
    (h : pfx pat (x ++ pat ++ rest) = true) :
    occursIn pat (x ++ pat.dropLast) = true := by
  have hsplit : pat.dropLast ++ [pat.getLast hpat] = pat :=
    List.dropLast_append_getLast hpat
  have hxlen : 0 < x.length := List.length_pos.2 hx
  have hlen : pat.length ≤ (x ++ pat.dropLast).length := by
    simp [List.length_dropLast]
    have : 0 < pat.length := List.length_pos.2 hpat
    omega
  have e : x ++ pat ++ rest =
      (x ++ pat.dropLast) ++ ([pat.getLast hpat] ++ rest) := by
    conv_lhs => rw [← hsplit]
    simp [List.append_assoc]
  rw [e] at h
  obtain ⟨t, ht⟩ := pfx_iff.1 h
  have htake : (x ++ pat.dropLast).take pat.length = pat := by
    have h1 := congrArg (List.take pat.length) ht
    rw [take_append_le pat.length _ _ hlen] at h1
    rw [take_append_le pat.length pat t le_rfl, List.take_length] at h1
    exact h1
  apply occursIn_of_pfx
  apply pfx_iff.2
  refine ⟨(x ++ pat.dropLast).drop pat.length, ?_⟩
  conv_lhs => rw [← List.take_append_drop pat.length (x ++ pat.dropLast)]
  rw [htake]

theorem litSub_emit {pat repl : List Char} (hpat : pat ≠ []) :
    ∀ x rest, occursIn pat (x ++ pat.dropLast) = false →
      litSub pat repl (x ++ pat ++ rest) = x ++ repl ++ litSub pat repl rest := by
  intro x
  induction x with
  | nil =>
    intro rest h
    cases pat with
    | nil => exact absurd rfl hpat
    | cons p0 pt =>
      have hstep : literalStep (p0 :: pt) repl (p0 :: (pt ++ rest)) =
          some (repl, rest) := by
        have hpfx : pfx (p0 :: pt) (p0 :: (pt ++ rest)) = true := by
          show pfx (p0 :: pt) ((p0 :: pt) ++ rest) = true
          exact pfx_append_self _ _
        have hdrop : (p0 :: (pt ++ rest)).drop (p0 :: pt).length = rest := by
          show ((p0 :: pt) ++ rest).drop (p0 :: pt).length = rest
          exact drop_len_append _ _
        simp [literalStep, hpfx, hdrop]
      show scan (literalStep (p0 :: pt) repl) (p0 :: (pt ++ rest)) = _
      rw [scan_cons_hit _ (literalStep_shrinks _ repl hpat) hstep]
      rfl
  | cons c x ih =>
    intro rest h
    have htail : occursIn pat (x ++ pat.dropLast) = false := by
      have : (c :: x) ++ pat.dropLast = c :: (x ++ pat.dropLast) := rfl
      rw [this] at h
      exact occursIn_tail_false h
    have hpfalse : pfx pat (c :: (x ++ pat ++ rest)) = false := by
      by_contra hx2
      have hx3 : pfx pat ((c :: x) ++ pat ++ rest) = true := by simpa using hx2
      rw [pfx_into_head (by simp) hpat hx3] at h
      exact absurd h (by simp)
    have hpfalse2 : pfx pat (c :: (x ++ (pat ++ rest))) = false := by
      rw [← List.append_assoc]
      exact hpfalse
    have hstep : literalStep pat repl (c :: (x ++ pat ++ rest)) = none := by
      simp [literalStep, hpfalse, hpfalse2]
    show scan (literalStep pat repl) (c :: (x ++ pat ++ rest)) = _
    rw [scan_cons_miss _ hstep]
    show c :: litSub pat repl (x ++ pat ++ rest) = _
    rw [ih rest htail]
    rfl

theorem litSub_every (pat repl : List Char) (hpat : pat ≠ []) :
    ∀ parts : List (List Char),
      (∀ p ∈ parts, occursIn pat (p ++ pat.dropLast) = false) →
      litSub pat repl (joinWith pat parts) = joinWith repl parts := by
  intro parts
  induction parts with
  | nil => intro _; rfl
  | cons p ps ih =>
    intro h
    cases ps with
    | nil =>
      show litSub pat repl p = p
      apply litSub_id hpat
      have hp0 := h p (by simp)
      by_contra hx
      have hx1 : occursIn pat p = true := by simpa using hx
      rw [occursIn_append_left _ hx1] at hp0
      exact absurd hp0 (by simp)
    | cons q ps2 =>
      show litSub pat repl (p ++ pat ++ joinWith pat (q :: ps2)) =
        p ++ repl ++ joinWith repl (q :: ps2)
      rw [litSub_emit hpat p _ (h p (by simp))]
      rw [ih (fun r hr => h r (by simp [hr]))]

/-- C10: the last two rules of the table are the lstlisting delimiter
rules, rewriting `\begin{lstlisting}` to the fence ` ```python ` and
`\end{lstlisting}` to ` ``` `; for a text assembled from fragments none
of which contains (or completes) a delimiter, every delimiter occurrence
is replaced. -/
theorem lstlisting_rules_spec :
    replace_spec.length = 17 ∧
    replace_spec[15]? = some (env_regex "lstlisting" true false,
      ReplAction.tmpl "```python") ∧
    replace_spec[16]? = some (env_regex "lstlisting" false true,
      ReplAction.tmpl "```") ∧
    env_regex "lstlisting" true false = "\\\\begin\\\x7blstlisting\\\x7d" ∧
    env_regex "lstlisting" false true = "\\\\end\\\x7blstlisting\\\x7d" ∧
    (∀ parts : List (List Char),
      (∀ p ∈ parts, occursIn beginLstTok (p ++ beginLstTok.dropLast) = false) →
      litSub beginLstTok (lit "```python") (joinWith beginLstTok parts) =
        joinWith (lit "```python") parts) ∧
    (∀ parts : List (List Char),
      (∀ p ∈ parts, occursIn endLstTok (p ++ endLstTok.dropLast) = false) →
      litSub endLstTok (lit "```") (joinWith endLstTok parts) =
        joinWith (lit "```") parts) := by
  refine ⟨by decide, by decide, by decide, by decide, by decide,
    litSub_every _ _ (by decide), litSub_every _ _ (by decide)⟩

/-- Witness for C10 at a two-fragment text containing one delimiter of
each kind. -/
theorem lstlisting_rules_witness :
    occursIn beginLstTok (lit "a" ++ beginLstTok.dropLast) = false ∧
    occursIn beginLstTok (lit "b" ++ beginLstTok.dropLast) = false ∧
    occursIn endLstTok (lit "a" ++ endLstTok.dropLast) = false ∧
    litSub beginLstTok (lit "```python") (joinWith beginLstTok [lit "a", lit "b"]) =
      joinWith (lit "```python") [lit "a", lit "b"] ∧
    litSub endLstTok (lit "```") (joinWith endLstTok [lit "a", lit "b"]) =
      joinWith (lit "```") [lit "a", lit "b"] := by
  refine ⟨by decide, by decide, by decide, ?_, ?_⟩
  · exact lstlisting_rules_spec.2.2.2.2.2.1 [lit "a", lit "b"] (by decide)
  · exact lstlisting_rules_spec.2.2.2.2.2.2 [lit "a", lit "b"] (by decide)

/-- C4 (code bug): with `shell=True` and a list argument, the shell
only parses and runs the FIRST element — the interpreter path — while the
build script path and the relative path of the paper become positional
parameters of the shell itself.  The claim that the build script runs
with `papers/<paper_id>` as its argument does not hold; only the working
directory (the located root) matches the claim. -/
theorem build_paper_shell_misuse (pythonExe rootpath paper_id : String) :
    build_paper pythonExe rootpath paper_id =
      [ { program := "/bin/sh",
          argv := ["-c", pythonExe, rootpath ++ "/publisher/build_paper.py",
            "papers/" ++ paper_id], cwd := rootpath },
        { program := "git", argv := ["reset"], cwd := rootpath } ] ∧
    shellCommand (subprocessRun [pythonExe, rootpath ++ "/publisher/build_paper.py",
      "papers/" ++ paper_id] true rootpath) = some pythonExe := by
  constructor
  · show [subprocessRun _ true rootpath, subprocessRun ["git", "reset"] false rootpath] = _
    simp [subprocessRun]
  · show (if ("/bin/sh" : String) = "/bin/sh" then
      (["-c", pythonExe, rootpath ++ "/publisher/build_paper.py",
        "papers/" ++ paper_id] : List String)[1]? else none) = some pythonExe
    rw [if_pos rfl]
    rfl

/-- C3 (code bug): with the remote unregistered and the environment
variable set to `git@example.com:user/repo.git`, the code hands ONE
unsplit command-line string to `subprocess.run` (no `shell=True`), so the
OS is asked to execute a program literally named
`git remote add overleaf git@example.com:user/repo.git`; that is not an
available executable, `FileNotFoundError` is raised, no remote is
registered, and the fetch is never issued. -/
theorem remote_add_never_registers :
    sync_overleaf [] (some "git@example.com:user/repo.git") =
      { trace := [GitCmd.remoteList,
          GitCmd.rawExec (overleafAddArgv "git@example.com:user/repo.git")],
        error := some "FileNotFoundError" } ∧
    overleafAddArgv "git@example.com:user/repo.git" =
      ["git remote add overleaf git@example.com:user/repo.git"] ∧
    availableProgram "git remote add overleaf git@example.com:user/repo.git" = false ∧
    ((sync_overleaf [] (some "git@example.com:user/repo.git")).trace.filter
      isNetworkCmd) = [] := by
  refine ⟨by decide, by decide, by decide, by decide⟩

/-- C6: with the remote unregistered and the environment variable
unset (or empty), the sync fails fast with the descriptive `ValueError`
message and no network command (fetch or checkout) is ever issued;
conversely, with the remote already registered, the ensure step succeeds
without consulting the environment. -/
theorem sync_failfast_spec (remotes : List String) (envRepo : Option String) :
    ("overleaf" ∉ remotes → (envRepo = none ∨ envRepo = some "") →
      (sync_overleaf remotes envRepo).error = some remoteUnsetMsg ∧
      ((sync_overleaf remotes envRepo).trace.filter isNetworkCmd) = []) ∧
    ("overleaf" ∈ remotes →
      (_ensure_overleaf_remote_exists remotes envRepo).error = none) := by
  constructor
  · intro hno henv
    have hens : _ensure_overleaf_remote_exists remotes envRepo =
        { trace := [GitCmd.remoteList], error := some remoteUnsetMsg } := by
      unfold _ensure_overleaf_remote_exists
      rw [if_neg hno]
      rcases henv with rfl | rfl
      · rfl
      · rfl
    constructor
    · unfold sync_overleaf
      rw [hens]
    · unfold sync_overleaf
      rw [hens]
      rfl
  · intro hyes
    unfold _ensure_overleaf_remote_exists
    rw [if_pos hyes]

/-- Witness for C6: both directions at concrete remote lists. -/
theorem sync_failfast_witness :
    ("overleaf" ∉ ([] : List String)) ∧
    (sync_overleaf [] none).error = some remoteUnsetMsg ∧
    ((sync_overleaf [] none).trace.filter isNetworkCmd) = [] ∧
    ("overleaf" ∈ ["overleaf"]) ∧
    (_ensure_overleaf_remote_exists ["overleaf"] none).error = none := by
  refine ⟨by decide, ?_, ?_, by decide, ?_⟩
  · exact ((sync_failfast_spec [] none).1 (by decide) (Or.inl rfl)).1
  · exact ((sync_failfast_spec [] none).1 (by decide) (Or.inl rfl)).2
  · exact (sync_failfast_spec ["overleaf"] none).2 (by decide)

theorem findRoot_terminates (hasGit : List String → Bool) :
    ∀ l : List String, (∃ k, hasGit (l.take k) = true) →
      ∃ r, findRootF hasGit (l.length + 1) l = some r ∧ hasGit r = true := by
  intro l
  induction l using List.reverseRecOn with
  | nil =>
    intro hex
    obtain ⟨k, hk⟩ := hex
    simp only [List.take_nil] at hk
    exact ⟨[], by simp [findRootF, hk], hk⟩
  | append_singleton xs x ih =>
    intro hex
    by_cases hg : hasGit (xs ++ [x]) = true
    · exact ⟨xs ++ [x], by simp [findRootF, hg], hg⟩
    · have hgf : hasGit (xs ++ [x]) = false := by simpa using hg
      obtain ⟨k, hk⟩ := hex
      have hkle : k ≤ xs.length := by
        by_contra hlt
        push_neg at hlt
        have htk : (xs ++ [x]).take k = xs ++ [x] := take_ge _ _ (by simp; omega)
        rw [htk, hgf] at hk
        exact absurd hk (by simp)
      have hk2 : hasGit (xs.take k) = true := by
        rw [take_append_le k xs [x] hkle] at hk
        exact hk
      obtain ⟨r, hr, hgr⟩ := ih ⟨k, hk2⟩
      refine ⟨r, ?_, hgr⟩
      show findRootF hasGit ((xs ++ [x]).length + 1) (xs ++ [x]) = some r
      simp only [findRootF, hgf]
      rw [show parentDir (xs ++ [x]) = xs from by
        simp [parentDir, List.dropLast_concat]]
      rw [show (xs ++ [x]).length = xs.length + 1 from by simp]
      simpa using hr

theorem findRoot_diverges (hasGit : List String → Bool) :
    ∀ (n : Nat) (l : List String), (∀ k, hasGit (l.take k) = false) →
      findRootF hasGit n l = none := by
  intro n
  induction n with
  | zero => intro l _; rfl
  | succ n ih =>
    intro l h
    have h0 : hasGit l = false := by
      have hl := h l.length
      rwa [List.take_length] at hl
    simp only [findRootF, h0]
    apply ih
    intro k
    have e : (parentDir l).take k = l.take (min k (l.length - 1)) := by
      rw [parentDir, List.dropLast_eq_take, List.take_take]
    rw [e]
    exact h _

/-- C9: the root-locator walk exits exactly when some ancestor of the
starting directory (itself included — ancestors are its component-list
prefixes) has the version-control marker: with such an ancestor, depth+1
iterations suffice and the result carries the marker; with none, no
iteration bound whatsoever makes the loop exit — the root is its own
parent and the loop has no other exit. -/
theorem find_root_walk_spec (hasGit : List String → Bool) (l : List String) :
    ((∃ k, hasGit (l.take k) = true) →
      ∃ r, findRootF hasGit (l.length + 1) l = some r ∧ hasGit r = true) ∧
    ((∀ k, hasGit (l.take k) = false) →
      ∀ n, findRootF hasGit n l = none) ∧
    parentDir [] = [] := by
  exact ⟨findRoot_terminates hasGit l,
    fun h n => findRoot_diverges hasGit n l h, rfl⟩

/-- Witness for C9: a marker at the parent directory is found within the
depth bound; with no marker anywhere, five iterations still do not exit. -/
theorem find_root_walk_witness :
    (fun d => d == ["r"]) ((["r", "a"] : List String).take 1) = true ∧
    (∃ r, findRootF (fun d => d == ["r"]) 3 ["r", "a"] = some r ∧
      (fun d => d == ["r"]) r = true) ∧
    findRootF (fun _ => false) 5 ["a"] = none := by
  refine ⟨by decide, ?_, ?_⟩
  · exact (find_root_walk_spec (fun d => d == ["r"]) ["r", "a"]).1 ⟨1, by decide⟩
  · exact (find_root_walk_spec (fun _ => false) ["a"]).2.1 (fun _ => rfl) 5

end Rebuild
